import Mathlib

/-!
Verification of `src/fix2.py`, the HWPX template archive rebuilder.

The script opens a fresh zip archive at `OUTPUT_PATH`, iterates the hardcoded
manifest `FILE_ORDER` in order, skips (with a warning) entries whose source
path does not exist, selects `ZIP_STORED` for the entry named `mimetype` and
for `*.png` entries and `ZIP_DEFLATED` otherwise, writes each remaining entry
into the archive, prints a progress line per added entry, and prints a
completion line after the `with` block closes the archive.

The shallow embedding below models one run of the script as a pure function
from the filesystem state (a partial map from paths to filesystem objects)
and the run parameters to the list of archive members written, the ordered
trace of observable events (console lines and the archive-handle release),
and the fatal error, if any, that aborted the run.
-/

namespace Fix2

/-- Compression method of a zip member: `zipfile.ZIP_STORED` or
`zipfile.ZIP_DEFLATED`. -/
inductive Compress where
  | stored
  | deflated
deriving DecidableEq

/-- A filesystem object that may sit at a path: a readable regular file with
byte contents, an existing but unreadable file (reading it raises an
`OSError`), or a directory.  `os.path.exists` answers `true` for any of
these. -/
inductive FsObj where
  | file (content : List Nat)
  | unreadable
  | dir
deriving DecidableEq

/-- True exactly on readable regular files. -/
def FsObj.isFile : FsObj → Bool
  | .file _ => true
  | .unreadable => false
  | .dir => false

/-- A filesystem state: a partial map from absolute paths to the objects
stored there (`none` means nothing exists at that path). -/
def Fs := String → Option FsObj

/-- A filesystem built from a finite association list of paths and objects;
used to evaluate the model on concrete inputs. -/
def fsOf (entries : List (String × FsObj)) : Fs :=
  fun p => (entries.find? (fun e => e.1 == p)).map (fun e => e.2)

/-- The source tree contains only readable regular files.  This is the
spec's data model of a source tree: each manifest entry, when present, is a
plain byte stream under the source root. -/
def filesOnly (fs : Fs) : Prop :=
  ∀ p o, fs p = some o → o.isFile = true

/-- The source tree contains no existing-but-unreadable file, so no
`zf.write` call raises mid-run. -/
def noUnreadable (fs : Fs) : Prop :=
  ∀ p, fs p ≠ some FsObj.unreadable

/-- Model of `os.path.join(TEMPLATE_DIR, fname)` for the relative entry
paths used by the script. -/
def joinPath (root fname : String) : String :=
  root ++ "/" ++ fname

/-- Model of Python's `str.endswith`: the character sequence of `post` is a
suffix of the character sequence of `s`. -/
def endswith (s post : String) : Bool :=
  post.data.isSuffixOf s.data

/-- The compression selection of `fix2.py` (lines 32-35):
`ZIP_STORED` when `fname == 'mimetype' or fname.endswith('.png')`, else
`ZIP_DEFLATED`. -/
def compressFor (fname : String) : Compress :=
  if fname = "mimetype" || endswith fname ".png" then Compress.stored
  else Compress.deflated

/-- `TEMPLATE_DIR` constant of `fix2.py`. -/
def TEMPLATE_DIR : String := "/tmp/hwpx_2026_fresh"

/-- `OUTPUT_PATH` constant of `fix2.py`. -/
def OUTPUT_PATH : String :=
  "/Users/kinn/Desktop/thegrantai/public/template_2026_early.hwpx"

/-- The hardcoded manifest `FILE_ORDER` of `fix2.py`. -/
def FILE_ORDER : List String :=
  [ "mimetype",
    "version.xml",
    "Contents/header.xml",
    "Contents/section0.xml",
    "Preview/PrvText.txt",
    "Scripts/headerScripts",
    "Scripts/sourceScripts",
    "settings.xml",
    "Preview/PrvImage.png",
    "META-INF/container.rdf",
    "Contents/content.hpf",
    "META-INF/container.xml",
    "META-INF/manifest.xml" ]

/-- A member written into the output archive: its name in the archive, its
recorded compression method, and the bytes it holds. -/
structure Member where
  name : String
  compress : Compress
  content : List Nat
deriving DecidableEq

/-- An observable event of one run, in emission order:
`warning f` is the line `Warning: {f} not found`; `added f` is the line
`Added: {f}`; `closed` is the release of the archive handle when the `with`
block exits; `done` is the final `Done! ...` line. -/
inductive Event where
  | warning (fname : String)
  | added (fname : String)
  | closed
  | done
deriving DecidableEq

/-- A fatal error terminating the run: the zip open on line 25 raised, or a
`zf.write` on line 37 raised while reading a source file. -/
inductive Fatal where
  | openFailed
  | readFailed (fname : String)
deriving DecidableEq

/-- The outcome of a run (or of a partial run of the loop): the archive
members written so far in order, the events emitted so far in order, and the
fatal error if one occurred. -/
structure RunResult where
  members : List Member
  events : List Event
  fatal : Option Fatal
deriving DecidableEq

/-- The `for fname in FILE_ORDER` loop body of `fix2.py` (lines 26-38) over
the remaining entries.  Per entry: if `os.path.exists` fails, print the
warning and continue; otherwise call `zf.write(full_path, fname,
compress_type=compress)` and print the progress line.  On a readable file,
CPython's `zipfile` writes a member named `fname` with the chosen
compression and the file's bytes; on a directory, it writes a directory
member named `fname + '/'` with `ZIP_STORED` and no bytes; on an unreadable
file, the raised `OSError` propagates and aborts the loop. -/
def runEntries (fs : Fs) (root : String) : List String → RunResult
  | [] => ⟨[], [], none⟩
  | fname :: rest =>
    match fs (joinPath root fname) with
    | none =>
      let r := runEntries fs root rest
      ⟨r.members, Event.warning fname :: r.events, r.fatal⟩
    | some (FsObj.file c) =>
      let r := runEntries fs root rest
      ⟨⟨fname, compressFor fname, c⟩ :: r.members,
        Event.added fname :: r.events, r.fatal⟩
    | some FsObj.dir =>
      let r := runEntries fs root rest
      ⟨⟨fname ++ "/", Compress.stored, []⟩ :: r.members,
        Event.added fname :: r.events, r.fatal⟩
    | some FsObj.unreadable => ⟨[], [], some (Fatal.readFailed fname)⟩

/-- One full run of `fix2.py` (lines 25-40).  `openOk` records whether
creating the output archive on line 25 succeeds; when it fails the raised
`OSError` aborts the run before the `with` body starts, so nothing is
written and no line is printed.  When it succeeds, the loop runs inside the
`with` block, whose exit — normal or by exception — releases the archive
handle (`closed`); the completion line `Done!` on line 40 prints only after
a normal exit. -/
def rebuild (openOk : Bool) (fs : Fs) (root : String) (manifest : List String) :
    RunResult :=
  if openOk then
    let r := runEntries fs root manifest
    match r.fatal with
    | none => ⟨r.members, r.events ++ [Event.closed, Event.done], none⟩
    | some f => ⟨r.members, r.events ++ [Event.closed], some f⟩
  else ⟨[], [], some Fatal.openFailed⟩

/-- Sample source tree for concrete evaluations: the three existing files of
the spec's test scenario, under the script's `TEMPLATE_DIR`. -/
def sampleFs : Fs :=
  fsOf
    [ ("/tmp/hwpx_2026_fresh/mimetype", FsObj.file [104, 119, 112]),
      ("/tmp/hwpx_2026_fresh/a.xml", FsObj.file [60, 62]),
      ("/tmp/hwpx_2026_fresh/img.png", FsObj.file [137, 80]) ]

/-- Sample source tree containing an existing but unreadable file. -/
def badFs : Fs :=
  fsOf
    [ ("/tmp/hwpx_2026_fresh/a.xml", FsObj.file [1]),
      ("/tmp/hwpx_2026_fresh/bad.xml", FsObj.unreadable) ]

/-- Sample source tree with a directory sitting at a manifest entry's path. -/
def dirFs : Fs := fsOf [("/tmp/hwpx_2026_fresh/Scripts", FsObj.dir)]

/-- Sample source tree for the duplicate-manifest counterexample. -/
def dupFs : Fs := fsOf [("/tmp/hwpx_2026_fresh/a.xml", FsObj.file [7])]

theorem filesOnly_fsOf (l : List (String × FsObj))
    (h : ∀ x ∈ l, x.2.isFile = true) : filesOnly (fsOf l) := by
  intro p o hpo
  unfold fsOf at hpo
  cases hfind : l.find? (fun e => e.1 == p) with
  | none => rw [hfind] at hpo; cases hpo
  | some x =>
    rw [hfind] at hpo
    cases hpo
    exact h x (List.mem_of_find?_eq_some hfind)

theorem noUnreadable_fsOf (l : List (String × FsObj))
    (h : ∀ x ∈ l, x.2 ≠ FsObj.unreadable) : noUnreadable (fsOf l) := by
  intro p hp
  unfold fsOf at hp
  cases hfind : l.find? (fun e => e.1 == p) with
  | none => rw [hfind] at hp; cases hp
  | some x =>
    rw [hfind] at hp
    injection hp with hx
    exact h x (List.mem_of_find?_eq_some hfind) hx

theorem noUnreadable_of_filesOnly {fs : Fs} (h : filesOnly fs) :
    noUnreadable fs := by
  intro p hp
  have hfile := h p FsObj.unreadable hp
  simp [FsObj.isFile] at hfile

theorem filesOnly_sampleFs : filesOnly sampleFs :=
  filesOnly_fsOf _ (by decide)

theorem noUnreadable_dirFs : noUnreadable dirFs :=
  noUnreadable_fsOf _ (by decide)

theorem filesOnly_dupFs : filesOnly dupFs :=
  filesOnly_fsOf _ (by decide)

theorem runEntries_fatal_none (fs : Fs) (root : String) (h : noUnreadable fs) :
    ∀ M : List String, (runEntries fs root M).fatal = none := by
  intro M
  induction M with
  | nil => rfl
  | cons fname rest ih =>
    simp only [runEntries]
    cases hfs : fs (joinPath root fname) with
    | none => simpa using ih
    | some o =>
      cases o with
      | file c => simpa using ih
      | dir => simpa using ih
      | unreadable => exact absurd hfs (h _)

theorem runEntries_names (fs : Fs) (root : String) (h : filesOnly fs) :
    ∀ M : List String,
      (runEntries fs root M).members.map Member.name
        = M.filter (fun f => (fs (joinPath root f)).isSome) := by
  intro M
  induction M with
  | nil => rfl
  | cons fname rest ih =>
    simp only [runEntries]
    cases hfs : fs (joinPath root fname) with
    | none => simp [hfs, List.filter_cons, ih]
    | some o =>
      cases o with
      | file c => simp [hfs, List.filter_cons, ih]
      | dir =>
        have hfile := h _ _ hfs
        simp [FsObj.isFile] at hfile
      | unreadable =>
        have hfile := h _ _ hfs
        simp [FsObj.isFile] at hfile

theorem runEntries_mem_members (fs : Fs) (root : String) (h : filesOnly fs)
    {M : List String} {m : Member}
    (hm : m ∈ (runEntries fs root M).members) :
    ∃ f c, f ∈ M ∧ fs (joinPath root f) = some (FsObj.file c)
      ∧ m = ⟨f, compressFor f, c⟩ := by
  induction M with
  | nil => simp [runEntries] at hm
  | cons fname rest ih =>
    simp only [runEntries] at hm
    cases hfs : fs (joinPath root fname) with
    | none =>
      rw [hfs] at hm
      obtain ⟨f, c, hfM, hfc, hmeq⟩ := ih hm
      exact ⟨f, c, List.mem_cons_of_mem _ hfM, hfc, hmeq⟩
    | some o =>
      cases o with
      | file c =>
        rw [hfs] at hm
        rcases List.mem_cons.mp hm with hmeq | hmrest
        · exact ⟨fname, c, List.mem_cons_self _ _, hfs, hmeq⟩
        · obtain ⟨f, c', hfM, hfc, hmeq⟩ := ih hmrest
          exact ⟨f, c', List.mem_cons_of_mem _ hfM, hfc, hmeq⟩
      | dir =>
        have hfile := h _ _ hfs
        simp [FsObj.isFile] at hfile
      | unreadable =>
        have hfile := h _ _ hfs
        simp [FsObj.isFile] at hfile

theorem runEntries_member_of (fs : Fs) (root : String) (hnu : noUnreadable fs)
    {M : List String} {f : String} {c : List Nat} (hf : f ∈ M)
    (hc : fs (joinPath root f) = some (FsObj.file c)) :
    (⟨f, compressFor f, c⟩ : Member) ∈ (runEntries fs root M).members := by
  induction M with
  | nil => cases hf
  | cons g rest ih =>
    simp only [runEntries]
    rcases List.mem_cons.mp hf with hfg | hfr
    · subst hfg
      rw [hc]
      exact List.mem_cons_self _ _
    · cases hgs : fs (joinPath root g) with
      | none => simpa using ih hfr
      | some o =>
        cases o with
        | file c' => simpa using Or.inr (ih hfr)
        | dir => simpa using Or.inr (ih hfr)
        | unreadable => exact absurd hgs (hnu _)

theorem runEntries_events_shape (fs : Fs) (root : String) :
    ∀ M : List String, ∀ e ∈ (runEntries fs root M).events,
      (∃ f, e = Event.warning f) ∨ (∃ f, e = Event.added f) := by
  intro M
  induction M with
  | nil => intro e he; cases he
  | cons fname rest ih =>
    intro e he
    simp only [runEntries] at he
    cases hfs : fs (joinPath root fname) with
    | none =>
      rw [hfs] at he
      rcases List.mem_cons.mp he with rfl | hrest
      · exact Or.inl ⟨fname, rfl⟩
      · exact ih e hrest
    | some o =>
      cases o with
      | file c =>
        rw [hfs] at he
        rcases List.mem_cons.mp he with rfl | hrest
        · exact Or.inr ⟨fname, rfl⟩
        · exact ih e hrest
      | dir =>
        rw [hfs] at he
        rcases List.mem_cons.mp he with rfl | hrest
        · exact Or.inr ⟨fname, rfl⟩
        · exact ih e hrest
      | unreadable =>
        rw [hfs] at he
        cases he

theorem closed_not_mem_runEntries (fs : Fs) (root : String) (M : List String) :
    Event.closed ∉ (runEntries fs root M).events := by
  intro hmem
  rcases runEntries_events_shape fs root M Event.closed hmem with ⟨f, hf⟩ | ⟨f, hf⟩ <;>
    cases hf

theorem done_not_mem_runEntries (fs : Fs) (root : String) (M : List String) :
    Event.done ∉ (runEntries fs root M).events := by
  intro hmem
  rcases runEntries_events_shape fs root M Event.done hmem with ⟨f, hf⟩ | ⟨f, hf⟩ <;>
    cases hf

theorem runEntries_warning_count (fs : Fs) (root : String)
    (hnu : noUnreadable fs) {f : String}
    (hmiss : fs (joinPath root f) = none) :
    ∀ M : List String,
      (runEntries fs root M).events.count (Event.warning f) = M.count f := by
  intro M
  induction M with
  | nil => rfl
  | cons g rest ih =>
    simp only [runEntries]
    cases hgs : fs (joinPath root g) with
    | none =>
      simp only [List.count_cons, ih]
      congr 1
      by_cases hgf : g = f
      · subst hgf; simp
      · simp [hgf, Event.warning.injEq]
    | some o =>
      have hne : g ≠ f := by
        intro hgf; subst hgf; rw [hmiss] at hgs; cases hgs
      cases o with
      | file c => simp [List.count_cons, ih, hne]
      | dir => simp [List.count_cons, ih, hne]
      | unreadable => exact absurd hgs (hnu _)

theorem runEntries_fatal_of_unreadable (fs : Fs) (root : String)
    {M : List String} {f : String} (hf : f ∈ M)
    (hu : fs (joinPath root f) = some FsObj.unreadable) :
    (runEntries fs root M).fatal ≠ none := by
  induction M with
  | nil => cases hf
  | cons g rest ih =>
    simp only [runEntries]
    have hfr : g ≠ f → f ∈ rest := by
      intro hne
      rcases List.mem_cons.mp hf with rfl | h
      · exact absurd rfl hne
      · exact h
    cases hgs : fs (joinPath root g) with
    | none =>
      have hne : g ≠ f := by
        intro hgf; subst hgf; rw [hu] at hgs; cases hgs
      simpa using ih (hfr hne)
    | some o =>
      cases o with
      | file c =>
        have hne : g ≠ f := by
          intro hgf; subst hgf; rw [hu] at hgs; cases hgs
        simpa using ih (hfr hne)
      | dir =>
        have hne : g ≠ f := by
          intro hgf; subst hgf; rw [hu] at hgs; cases hgs
        simpa using ih (hfr hne)
      | unreadable => simp

theorem warning_mem_runEntries (fs : Fs) (root : String) {f : String} :
    ∀ M : List String, Event.warning f ∈ (runEntries fs root M).events →
      fs (joinPath root f) = none := by
  intro M
  induction M with
  | nil => intro h; cases h
  | cons g rest ih =>
    intro hmem
    simp only [runEntries] at hmem
    cases hgs : fs (joinPath root g) with
    | none =>
      rw [hgs] at hmem
      rcases List.mem_cons.mp hmem with heq | hrest
      · injection heq with hgf; subst hgf; exact hgs
      · exact ih hrest
    | some o =>
      cases o with
      | file c =>
        rw [hgs] at hmem
        rcases List.mem_cons.mp hmem with heq | hrest
        · cases heq
        · exact ih hrest
      | dir =>
        rw [hgs] at hmem
        rcases List.mem_cons.mp hmem with heq | hrest
        · cases heq
        · exact ih hrest
      | unreadable =>
        rw [hgs] at hmem
        cases hmem

theorem runEntries_dir_written (fs : Fs) (root : String)
    (hnu : noUnreadable fs) {M : List String} {f : String} (hf : f ∈ M)
    (hd : fs (joinPath root f) = some FsObj.dir) :
    Event.added f ∈ (runEntries fs root M).events
      ∧ ∃ m ∈ (runEntries fs root M).members, m.name = f ++ "/" := by
  induction M with
  | nil => cases hf
  | cons g rest ih =>
    simp only [runEntries]
    rcases List.mem_cons.mp hf with hfg | hfr
    · subst hfg
      rw [hd]
      exact ⟨List.mem_cons_self _ _,
        ⟨⟨f ++ "/", Compress.stored, []⟩, List.mem_cons_self _ _, rfl⟩⟩
    · cases hgs : fs (joinPath root g) with
      | none =>
        obtain ⟨hadd, m, hm, hname⟩ := ih hfr
        exact ⟨List.mem_cons_of_mem _ hadd, ⟨m, hm, hname⟩⟩
      | some o =>
        cases o with
        | file c =>
          obtain ⟨hadd, m, hm, hname⟩ := ih hfr
          exact ⟨List.mem_cons_of_mem _ hadd,
            ⟨m, List.mem_cons_of_mem _ hm, hname⟩⟩
        | dir =>
          obtain ⟨hadd, m, hm, hname⟩ := ih hfr
          exact ⟨List.mem_cons_of_mem _ hadd,
            ⟨m, List.mem_cons_of_mem _ hm, hname⟩⟩
        | unreadable => exact absurd hgs (hnu _)

theorem rebuild_of_fatal_none (fs : Fs) (root : String) (M : List String)
    (h : (runEntries fs root M).fatal = none) :
    rebuild true fs root M
      = ⟨(runEntries fs root M).members,
         (runEntries fs root M).events ++ [Event.closed, Event.done], none⟩ := by
  simp only [rebuild, if_true, h]

theorem rebuild_of_fatal_some (fs : Fs) (root : String) (M : List String)
    {e : Fatal} (h : (runEntries fs root M).fatal = some e) :
    rebuild true fs root M
      = ⟨(runEntries fs root M).members,
         (runEntries fs root M).events ++ [Event.closed], some e⟩ := by
  simp only [rebuild, if_true, h]

theorem compressFor_eq_stored_iff (n : String) :
    compressFor n = Compress.stored
      ↔ (n = "mimetype" ∨ endswith n ".png" = true) := by
  unfold compressFor
  by_cases h1 : n = "mimetype" <;> by_cases h2 : endswith n ".png" = true <;>
    simp [h1, h2]

theorem compressFor_eq_deflated_iff (n : String) :
    compressFor n = Compress.deflated
      ↔ ¬(n = "mimetype" ∨ endswith n ".png" = true) := by
  unfold compressFor
  by_cases h1 : n = "mimetype" <;> by_cases h2 : endswith n ".png" = true <;>
    simp [h1, h2]

/-- C1: for every manifest `M` and source tree `T` (a tree of plain files),
the member list of the output archive, in order, equals `M` restricted to
the entries whose source file exists under `T` — no additions, omissions, or
reordering — and in particular equals `M` exactly when every entry exists;
each member is named exactly its manifest relative path. -/
theorem c1_member_list (fs : Fs) (root : String) (M : List String)
    (h : filesOnly fs) :
    (rebuild true fs root M).members.map Member.name
        = M.filter (fun f => (fs (joinPath root f)).isSome)
    ∧ ((∀ f ∈ M, (fs (joinPath root f)).isSome) →
        (rebuild true fs root M).members.map Member.name = M) := by
  have hfat := runEntries_fatal_none fs root (noUnreadable_of_filesOnly h) M
  rw [rebuild_of_fatal_none fs root M hfat]
  have hnames := runEntries_names fs root h M
  refine ⟨hnames, fun hall => ?_⟩
  rw [hnames]
  exact List.filter_eq_self.mpr hall

/-- Closed instance of C1 on the spec's test scenario: the three existing
entries appear in manifest order, the missing one is omitted. -/
theorem c1_member_list_witness :
    filesOnly sampleFs
    ∧ (rebuild true sampleFs TEMPLATE_DIR
          ["mimetype", "a.xml", "img.png", "missing.xml"]).members.map Member.name
        = ["mimetype", "a.xml", "img.png"] :=
  ⟨filesOnly_sampleFs, by
    rw [(c1_member_list sampleFs TEMPLATE_DIR
      ["mimetype", "a.xml", "img.png", "missing.xml"] filesOnly_sampleFs).1]
    decide⟩

/-- C2: the compression method of every written member is a pure function
of the entry name — `Store` exactly when the name is `mimetype` or ends in
`.png`, and `Deflate` for every other name. -/
theorem c2_compression_rule (fs : Fs) (root : String) (M : List String)
    (h : filesOnly fs) :
    ∀ m ∈ (rebuild true fs root M).members,
      m.compress = compressFor m.name
      ∧ (m.compress = Compress.stored
          ↔ (m.name = "mimetype" ∨ endswith m.name ".png" = true))
      ∧ (¬(m.name = "mimetype" ∨ endswith m.name ".png" = true) →
          m.compress = Compress.deflated) := by
  intro m hm
  have hfat := runEntries_fatal_none fs root (noUnreadable_of_filesOnly h) M
  rw [rebuild_of_fatal_none fs root M hfat] at hm
  obtain ⟨f, c, hfM, hfc, hmeq⟩ := runEntries_mem_members fs root h hm
  subst hmeq
  refine ⟨rfl, compressFor_eq_stored_iff f, fun hnot => ?_⟩
  exact (compressFor_eq_deflated_iff f).mpr hnot

/-- Closed instance of C2: the `img.png` member of a concrete run is stored
with `Store`, matching the rule at its name. -/
theorem c2_compression_rule_witness :
    filesOnly sampleFs
    ∧ (rebuild true sampleFs TEMPLATE_DIR
          ["mimetype", "a.xml", "img.png"]).members
        = [⟨"mimetype", Compress.stored, [104, 119, 112]⟩,
           ⟨"a.xml", Compress.deflated, [60, 62]⟩,
           ⟨"img.png", Compress.stored, [137, 80]⟩]
    ∧ (⟨"img.png", Compress.stored, [137, 80]⟩ : Member).compress
        = compressFor (⟨"img.png", Compress.stored, [137, 80]⟩ : Member).name := by
  have hlist : (rebuild true sampleFs TEMPLATE_DIR
          ["mimetype", "a.xml", "img.png"]).members
        = [⟨"mimetype", Compress.stored, [104, 119, 112]⟩,
           ⟨"a.xml", Compress.deflated, [60, 62]⟩,
           ⟨"img.png", Compress.stored, [137, 80]⟩] := by decide
  refine ⟨filesOnly_sampleFs, hlist, ?_⟩
  exact (c2_compression_rule sampleFs TEMPLATE_DIR
    ["mimetype", "a.xml", "img.png"] filesOnly_sampleFs
    ⟨"img.png", Compress.stored, [137, 80]⟩
    (by
      rw [hlist]
      exact List.mem_cons_of_mem _
        (List.mem_cons_of_mem _ (List.mem_cons_self _ _)))).1

/-- C3: a manifest entry whose source file does not exist produces exactly
one warning per occurrence in the manifest, contributes no member to the
archive, and never aborts the run. -/
theorem c3_missing_skipped (fs : Fs) (root : String) (M : List String)
    (f : String) (h : filesOnly fs)
    (hmiss : fs (joinPath root f) = none) :
    (rebuild true fs root M).events.count (Event.warning f) = M.count f
    ∧ (∀ m ∈ (rebuild true fs root M).members, m.name ≠ f)
    ∧ (rebuild true fs root M).fatal = none := by
  have hnu := noUnreadable_of_filesOnly h
  have hfat := runEntries_fatal_none fs root hnu M
  rw [rebuild_of_fatal_none fs root M hfat]
  refine ⟨?_, ?_, rfl⟩
  · rw [List.count_append, runEntries_warning_count fs root hnu hmiss M]
    simp
  · intro m hm hname
    obtain ⟨g, c, hgM, hgc, hmeq⟩ := runEntries_mem_members fs root h hm
    subst hmeq
    simp only at hname
    subst hname
    rw [hmiss] at hgc
    cases hgc

/-- Closed instance of C3 on the spec's test scenario: exactly one warning
names `missing.xml` and the run does not abort. -/
theorem c3_missing_skipped_witness :
    filesOnly sampleFs
    ∧ sampleFs (joinPath TEMPLATE_DIR "missing.xml") = none
    ∧ (rebuild true sampleFs TEMPLATE_DIR
          ["mimetype", "a.xml", "img.png", "missing.xml"]).events.count
        (Event.warning "missing.xml") = 1
    ∧ (rebuild true sampleFs TEMPLATE_DIR
          ["mimetype", "a.xml", "img.png", "missing.xml"]).fatal = none := by
  have h := c3_missing_skipped sampleFs TEMPLATE_DIR
    ["mimetype", "a.xml", "img.png", "missing.xml"] "missing.xml"
    filesOnly_sampleFs (by decide)
  exact ⟨filesOnly_sampleFs, by decide, by rw [h.1]; decide, h.2.2⟩

/-- Counterexample to C4 as stated: with the duplicate manifest
`["a.xml", "a.xml"]` and a source tree containing `a.xml`, the member name
`a.xml` is written to the archive twice, so the "no member name is written
twice, for every manifest including duplicates" reading is false. -/
theorem c4_counterexample :
    ((rebuild true dupFs TEMPLATE_DIR ["a.xml", "a.xml"]).members.map
        Member.name).count "a.xml" = 2
    ∧ ¬ ((rebuild true dupFs TEMPLATE_DIR ["a.xml", "a.xml"]).members.map
        Member.name).Nodup := by
  constructor <;> decide

/-- C4 (amended): no member whose name is outside the manifest is ever
written, for every manifest; and for every duplicate-free manifest no member
name is written twice. -/
theorem c4_no_extra_members (fs : Fs) (root : String) (M : List String)
    (h : filesOnly fs) :
    (∀ m ∈ (rebuild true fs root M).members, m.name ∈ M)
    ∧ (M.Nodup →
        ((rebuild true fs root M).members.map Member.name).Nodup) := by
  have hfat := runEntries_fatal_none fs root (noUnreadable_of_filesOnly h) M
  have hnames : (rebuild true fs root M).members.map Member.name
      = M.filter (fun f => (fs (joinPath root f)).isSome) := by
    rw [rebuild_of_fatal_none fs root M hfat]
    exact runEntries_names fs root h M
  constructor
  · intro m hm
    have hmem : m.name ∈ (rebuild true fs root M).members.map Member.name :=
      List.mem_map_of_mem Member.name hm
    rw [hnames] at hmem
    exact List.mem_of_mem_filter hmem
  · intro hnodup
    rw [hnames]
    exact hnodup.filter _

/-- Closed instance of the amended C4: on the script's own `FILE_ORDER`
(which is duplicate-free) no member name repeats. -/
theorem c4_no_extra_members_witness :
    filesOnly sampleFs
    ∧ FILE_ORDER.Nodup
    ∧ ((rebuild true sampleFs TEMPLATE_DIR FILE_ORDER).members.map
        Member.name).Nodup :=
  ⟨filesOnly_sampleFs, by decide,
    (c4_no_extra_members sampleFs TEMPLATE_DIR FILE_ORDER
      filesOnly_sampleFs).2 (by decide)⟩

/-- C5: whenever the output archive was opened, the run releases the
archive handle exactly once — on the success path and on any fatal
source-read-failure path alike — so the run never terminates with the
handle open. -/
theorem c5_handle_released_once (fs : Fs) (root : String) (M : List String) :
    (rebuild true fs root M).events.count Event.closed = 1 := by
  have hzero : (runEntries fs root M).events.count Event.closed = 0 :=
    List.count_eq_zero.mpr (closed_not_mem_runEntries fs root M)
  cases hfat : (runEntries fs root M).fatal with
  | none =>
    rw [rebuild_of_fatal_none fs root M hfat]
    simp [List.count_append, hzero, List.count_cons]
  | some e =>
    rw [rebuild_of_fatal_some fs root M hfat]
    simp [List.count_append, hzero, List.count_cons]

/-- C6: the completion notice is emitted iff the run has no fatal error,
then exactly once and as the final event; a source read failure at any
manifest entry makes the run fatal, so no completion notice appears then. -/
theorem c6_completion_notice (openOk : Bool) (fs : Fs) (root : String)
    (M : List String) (f : String) :
    ((rebuild openOk fs root M).events.count Event.done
        = if (rebuild openOk fs root M).fatal = none then 1 else 0)
    ∧ ((rebuild openOk fs root M).fatal = none →
        (rebuild openOk fs root M).events.getLast? = some Event.done)
    ∧ (openOk = true → f ∈ M → fs (joinPath root f) = some FsObj.unreadable →
        (rebuild openOk fs root M).fatal ≠ none) := by
  have hzero : (runEntries fs root M).events.count Event.done = 0 :=
    List.count_eq_zero.mpr (done_not_mem_runEntries fs root M)
  cases openOk with
  | false =>
    refine ⟨?_, ?_, ?_⟩
    · simp [rebuild]
    · intro h; simp [rebuild] at h
    · intro h; cases h
  | true =>
    cases hfat : (runEntries fs root M).fatal with
    | none =>
      rw [rebuild_of_fatal_none fs root M hfat]
      refine ⟨?_, fun _ => ?_, fun _ hf hu => ?_⟩
      · simp [List.count_append, hzero, List.count_cons]
      · rw [show (runEntries fs root M).events ++ [Event.closed, Event.done]
            = ((runEntries fs root M).events ++ [Event.closed]) ++ [Event.done]
          by simp]
        exact List.getLast?_concat _
      · exact absurd hfat (runEntries_fatal_of_unreadable fs root hf hu)
    | some e =>
      rw [rebuild_of_fatal_some fs root M hfat]
      refine ⟨?_, fun hnone => ?_, fun _ _ _ => ?_⟩
      · simp [List.count_append, hzero, List.count_cons]
      · cases hnone
      · simp

/-- Closed instance of C6: a run over a manifest containing an unreadable
source file ends fatally (and hence without a completion notice). -/
theorem c6_completion_notice_witness :
    ("bad.xml" ∈ (["a.xml", "bad.xml"] : List String))
    ∧ badFs (joinPath TEMPLATE_DIR "bad.xml") = some FsObj.unreadable
    ∧ (rebuild true badFs TEMPLATE_DIR ["a.xml", "bad.xml"]).fatal ≠ none :=
  ⟨List.mem_cons_of_mem _ (List.mem_cons_self _ _), by decide,
    (c6_completion_notice true badFs TEMPLATE_DIR ["a.xml", "bad.xml"]
        "bad.xml").2.2
      rfl (List.mem_cons_of_mem _ (List.mem_cons_self _ _)) (by decide)⟩

/-- C7: if opening/creating the output archive fails, the run ends with the
open I/O error before any member is written and before any warning or
progress line is emitted. -/
theorem c7_open_failure_aborts (fs : Fs) (root : String) (M : List String) :
    (rebuild false fs root M).members = []
    ∧ (rebuild false fs root M).events = []
    ∧ (rebuild false fs root M).fatal = some Fatal.openFailed :=
  ⟨rfl, rfl, rfl⟩

/-- C8: two runs with identical manifest, source root and source tree
produce identical member name sequences (order included) and identical
per-member compression choices. -/
theorem c8_structural_determinism (fs₁ fs₂ : Fs) (root₁ root₂ : String)
    (M₁ M₂ : List String) (hfs : fs₁ = fs₂) (hroot : root₁ = root₂)
    (hM : M₁ = M₂) :
    (rebuild true fs₁ root₁ M₁).members.map (fun m => (m.name, m.compress))
      = (rebuild true fs₂ root₂ M₂).members.map
          (fun m => (m.name, m.compress)) := by
  subst hfs; subst hroot; subst hM; rfl

/-- Closed instance of C8 on the script's own manifest. -/
theorem c8_structural_determinism_witness :
    sampleFs = sampleFs
    ∧ (rebuild true sampleFs TEMPLATE_DIR FILE_ORDER).members.map
          (fun m => (m.name, m.compress))
        = (rebuild true sampleFs TEMPLATE_DIR FILE_ORDER).members.map
            (fun m => (m.name, m.compress)) :=
  ⟨rfl, c8_structural_determinism sampleFs sampleFs TEMPLATE_DIR TEMPLATE_DIR
    FILE_ORDER FILE_ORDER rfl rfl rfl⟩

/-- C9: round trip — every written member holds exactly the bytes of the
source file at its name under the source root, and every manifest entry
whose source file exists is written as a member with exactly its file's
bytes, under the compression method the rule selects. -/
theorem c9_round_trip (fs : Fs) (root : String) (M : List String)
    (h : filesOnly fs) :
    (∀ m ∈ (rebuild true fs root M).members,
        fs (joinPath root m.name) = some (FsObj.file m.content))
    ∧ (∀ f ∈ M, ∀ c, fs (joinPath root f) = some (FsObj.file c) →
        (⟨f, compressFor f, c⟩ : Member)
          ∈ (rebuild true fs root M).members) := by
  have hnu := noUnreadable_of_filesOnly h
  have hfat := runEntries_fatal_none fs root hnu M
  rw [rebuild_of_fatal_none fs root M hfat]
  constructor
  · intro m hm
    obtain ⟨f, c, hfM, hfc, hmeq⟩ := runEntries_mem_members fs root h hm
    subst hmeq
    exact hfc
  · intro f hf c hc
    exact runEntries_member_of fs root hnu hf hc

/-- Closed instance of C9: the member for `a.xml` carries exactly the bytes
of the source file `a.xml`. -/
theorem c9_round_trip_witness :
    filesOnly sampleFs
    ∧ sampleFs (joinPath TEMPLATE_DIR "a.xml") = some (FsObj.file [60, 62])
    ∧ (⟨"a.xml", compressFor "a.xml", [60, 62]⟩ : Member)
        ∈ (rebuild true sampleFs TEMPLATE_DIR ["mimetype", "a.xml"]).members :=
  ⟨filesOnly_sampleFs, by decide,
    (c9_round_trip sampleFs TEMPLATE_DIR ["mimetype", "a.xml"]
      filesOnly_sampleFs).2 "a.xml"
        (List.mem_cons_of_mem _ (List.mem_cons_self _ _)) [60, 62] (by decide)⟩

/-- C10: the presence test is bare `os.path.exists`, not a regular-file
test: a directory at a manifest entry's path is treated as present — no
warning is emitted for the entry and it reaches the archive write step
(producing an `Added` notice and a written member), instead of being
skipped. -/
theorem c10_dir_is_present (fs : Fs) (root : String) (M : List String)
    (f : String) (hnu : noUnreadable fs) (hf : f ∈ M)
    (hd : fs (joinPath root f) = some FsObj.dir) :
    Event.warning f ∉ (rebuild true fs root M).events
    ∧ Event.added f ∈ (rebuild true fs root M).events
    ∧ ∃ m ∈ (rebuild true fs root M).members, m.name = f ++ "/" := by
  have hfat := runEntries_fatal_none fs root hnu M
  rw [rebuild_of_fatal_none fs root M hfat]
  obtain ⟨hadd, m, hm, hname⟩ := runEntries_dir_written fs root hnu hf hd
  refine ⟨?_, ?_, ⟨m, hm, hname⟩⟩
  · intro hw
    rcases List.mem_append.mp hw with hw | hw
    · rw [warning_mem_runEntries fs root M hw] at hd; cases hd
    · simp at hw
  · exact List.mem_append.mpr (Or.inl hadd)

/-- Closed instance of C10: a directory at `Scripts` yields no warning, an
`Added` notice, and a directory member named `Scripts/`. -/
theorem c10_dir_is_present_witness :
    noUnreadable dirFs
    ∧ ("Scripts" ∈ (["Scripts"] : List String))
    ∧ dirFs (joinPath TEMPLATE_DIR "Scripts") = some FsObj.dir
    ∧ (Event.warning "Scripts"
          ∉ (rebuild true dirFs TEMPLATE_DIR ["Scripts"]).events
        ∧ Event.added "Scripts"
          ∈ (rebuild true dirFs TEMPLATE_DIR ["Scripts"]).events
        ∧ ∃ m ∈ (rebuild true dirFs TEMPLATE_DIR ["Scripts"]).members,
            m.name = "Scripts" ++ "/") :=
  ⟨noUnreadable_dirFs, List.mem_cons_self _ _, by decide,
    c10_dir_is_present dirFs TEMPLATE_DIR ["Scripts"] "Scripts"
      noUnreadable_dirFs (List.mem_cons_self _ _) (by decide)⟩

end Fix2
